import Mathlib

/-!
# CascLib: block locator (`MemoryInfo`) and hexadecimal codec (`Hex`)

A shallow embedding of `Casc/DataTypes/MemoryInfo.hpp` and `Casc/Shared/Hex.hpp`.

Conventions of the embedding.
* Unsigned machine integers are natural numbers; where the C++ converts to a narrower
  type the reduction `% 2 ^ w` is written out.
* `std::bitset<N>` is the natural number below `2 ^ N` with the same bits; its positional
  operations are the functions of the `Bitset` namespace.
* `std::array<char, k>` is a list of `k` bytes, each byte being its bit pattern `0 .. 255`.
* `std::string` is the list of its characters.
-/

set_option linter.dupNamespace false

namespace Casc

/-! ## `std::bitset` -/

namespace Bitset

/-- The constructor `std::bitset<N>(v)`: keeps the low `N` bits of `v`. -/
def ofNat (N v : Nat) : Nat := v % 2 ^ N

/-- The read `b[i]` of a bitset. -/
def test (b i : Nat) : Bool := decide (b / 2 ^ i % 2 = 1)

/-- The write `b[i] = v` of a bitset: the bits below `i`, the new bit `i`, the bits above `i`. -/
def assign (b i : Nat) (v : Bool) : Nat :=
  b % 2 ^ i + (if v then 2 ^ i else 0) + b / 2 ^ (i + 1) * 2 ^ (i + 1)

/-- The shift `b <<= k` of a `std::bitset<N>`: bits moved past position `N - 1` are dropped. -/
def shl (N b k : Nat) : Nat := b * 2 ^ k % 2 ^ N

/-- The shift `b >>= k` of a bitset. -/
def shr (b k : Nat) : Nat := b / 2 ^ k

/-- The conversion `b.to_ulong()`. -/
def to_ulong (b : Nat) : Nat := b

end Bitset

/-! ## Endian helpers -/

/-- Modelled from the spec: `writeBE` of `Casc::Shared::Functions::Endian` is not part of the
available sources; the spec describes it as converting an unsigned integer of a fixed width to
a fixed big-endian byte sequence. `writeBE n v` is the `n`-byte sequence of `v`, most
significant byte first. -/
def writeBE : Nat → Nat → List Nat
  | 0, _ => []
  | n + 1, v => (v / 256 ^ n % 256) :: writeBE n v

/-- Modelled from the spec: `readBE` of `Casc::Shared::Functions::Endian` is not part of the
available sources; the spec describes it as converting a fixed big-endian byte sequence to an
unsigned integer. The first byte is the most significant one. -/
def readBE (bs : List Nat) : Nat := bs.foldl (fun acc b => acc * 256 + b) 0

/-! ## `MemoryInfo` -/

/-- The failures named by the specification. The sources declare no exception type and
contain no `throw` statement. -/
inductive Failure where
  | InvalidRange
  | InvalidEncoding
  deriving DecidableEq, Repr

/-- The three `size_t` fields of `class MemoryInfo`. -/
structure MemoryInfo where
  file_ : Nat
  offset_ : Nat
  size_ : Nat
  deriving DecidableEq, Repr

/-- The two values of `enum BytesType`. -/
inductive BytesType where
  | Count
  | Offset
  deriving DecidableEq, Repr

/-- The conversion of a `size_t` to `int` (32-bit two's complement). -/
def toInt (v : Nat) : Int :=
  if v % 2 ^ 32 < 2 ^ 31 then ((v % 2 ^ 32 : Nat) : Int) else ((v % 2 ^ 32 : Nat) : Int) - 2 ^ 32

namespace MemoryInfo

/-- The default constructor `MemoryInfo()`: the three fields keep their initialisers. -/
def default : MemoryInfo := { file_ := 0, offset_ := 0, size_ := 0 }

/-- The constructor `MemoryInfo(uint8_t file, uint32_t offset, uint32_t length, bool Shifted)`.
The arguments are the values of the typed parameters, so `file < 2 ^ 8` and
`offset, length < 2 ^ 32` at every call. -/
def MemoryInfo (file offset length : Nat) (Shifted : Bool) : Casc.MemoryInfo :=
  if Shifted then
    let fileBits := Bitset.ofNat 8 file
    let offsetBits := Bitset.ofNat 32 offset
    let fileBits := Bitset.shl 8 fileBits 2
    let fileBits := Bitset.assign fileBits 0 (Bitset.test offsetBits 30)
    let fileBits := Bitset.assign fileBits 1 (Bitset.test offsetBits 31)
    let offsetBits := Bitset.assign offsetBits 30 false
    let offsetBits := Bitset.assign offsetBits 31 false
    { file_ := Bitset.to_ulong fileBits, offset_ := Bitset.to_ulong offsetBits, size_ := length }
  else
    { file_ := file, offset_ := offset, size_ := length }

/-- The accessor `int file() const`. -/
def file (m : Casc.MemoryInfo) : Int := toInt m.file_

/-- The accessor `size_t offset() const`. -/
def offset (m : Casc.MemoryInfo) : Nat := m.offset_

/-- The accessor `size_t size() const`. -/
def size (m : Casc.MemoryInfo) : Nat := m.size_

/-- The member `template <BytesType Type> std::array<char, 5> bytes() const`. The array
`first` is value-initialised, so it holds a zero byte until it is assigned; the two
`std::copy` calls place `first` at index 0 and `second` at indices 1 to 4 of the result. -/
def bytes (T : BytesType) (m : Casc.MemoryInfo) : List Nat :=
  let first : List Nat := [0]
  let fs : List Nat × List Nat :=
    match T with
    | BytesType.Count => (first, writeBE 4 (m.size_ % 2 ^ 32))
    | BytesType.Offset =>
      let offsetBits := Bitset.ofNat 32 m.offset_
      let fileBits := Bitset.ofNat 8 m.file_
      let offsetBits := Bitset.assign offsetBits 30 (Bitset.test fileBits 0)
      let offsetBits := Bitset.assign offsetBits 31 (Bitset.test fileBits 1)
      let fileBits := Bitset.assign fileBits 0 false
      let fileBits := Bitset.assign fileBits 1 false
      let fileBits := Bitset.shr fileBits 2
      let second := writeBE 4 (Bitset.to_ulong offsetBits % 2 ^ 32)
      let first := writeBE 1 (Bitset.to_ulong fileBits % 2 ^ 8)
      (first, second)
  fs.1 ++ fs.2

/-- The re-parse step of the round-trip property, in the words of the specification: the five
serialised bytes `b` are read back as an unpacked locator, `b[0]` being the file and the
big-endian value of `b[1..4]` the offset. -/
def reparse (b : List Nat) (size : Nat) : Casc.MemoryInfo :=
  MemoryInfo (b.getD 0 0) (readBE (b.drop 1)) size false

/-- Construction of a `MemoryInfo` seen as an operation that may fail: the constructor body
has no `throw` and no check of its arguments, so every call returns the constructed value. -/
def construct (file offset length : Nat) (Shifted : Bool) : Except Failure Casc.MemoryInfo :=
  Except.ok (MemoryInfo file offset length Shifted)

end MemoryInfo

/-! ## `Hex` -/

/-- The class `template <int Size> class Hex`: the byte array `arr` and the string `str`. -/
structure Hex (Size : Nat) where
  arr : List Nat
  str : List Char
  deriving DecidableEq, Repr

/-- The character class `isspace` of the "C" locale, which formatted extraction skips. -/
def isSpace (c : Char) : Bool :=
  c = ' ' || c = '\t' || c = '\n' || c = '\x0b' || c = '\x0c' || c = '\r'

/-- The value of a character that the base-16 conversion accepts as a digit. -/
def hexDigit? (c : Char) : Option Nat :=
  if '0' ≤ c ∧ c ≤ '9' then some (c.toNat - '0'.toNat)
  else if 'a' ≤ c ∧ c ≤ 'f' then some (c.toNat - 'a'.toNat + 10)
  else if 'A' ≤ c ∧ c ≤ 'F' then some (c.toNat - 'A'.toNat + 10)
  else none

/-- The digits phase of the base-16 conversion: the leading hexadecimal digits of the input
are accumulated onto `acc`, and the first other character ends the number. -/
def readHexDigits : List Char → Nat → Nat
  | [], acc => acc
  | c :: cs, acc =>
    match hexDigit? c with
    | some d => readHexDigits cs (acc * 16 + d)
    | none => acc

/-- The extraction `ss >> std::hex >> i1` of the C++ standard library, on a stream holding the
characters `cs`: the value it writes to `i1`, or `none` when it writes nothing. Leading white
space is skipped first; when the stream holds nothing else, the sentry of the extraction fails
and `i1` is left untouched. Otherwise an optional sign and an optional `0x` or `0X` are read,
then hexadecimal digits, and their value is written; when no digit is read the conversion
fails and writes 0 (C++11). The streams of `Hex` hold two characters, so the conversion never
overflows `int`. -/
def readHex (cs : List Char) : Option Int :=
  let cs := cs.dropWhile isSpace
  if cs.isEmpty then none
  else
    let signed : Bool × List Char :=
      match cs with
      | '-' :: t => (true, t)
      | '+' :: t => (false, t)
      | _ => (false, cs)
    let digits : List Char :=
      match signed.2 with
      | '0' :: 'x' :: t => t
      | '0' :: 'X' :: t => t
      | _ => signed.2
    let v : Int := (readHexDigits digits 0 : Nat)
    some (if signed.1 then -v else v)

/-- The conversion of an `int` to `uint8_t`. -/
def toUInt8 (i : Int) : Nat := (i % 256).toNat

/-- The insertion `ss << std::setw(2) << c` on a stream set to `std::hex` and
`std::setfill('0')`: the lowercase base-16 digits of `c`, padded on the left with `'0'` to a
width of at least two characters. -/
def writeHex (c : Nat) : List Char :=
  let ds := Nat.toDigits 16 c
  List.replicate (2 - ds.length) '0' ++ ds

namespace Hex

/-- The constructor `Hex(const std::string &str)`, on the inputs for which its behaviour is
defined. Two reads of the body can fall outside: `str[k]` for `k` beyond `str.size()` (at
`k = str.size()` it is the null character), and `arr[i] = i1` after an extraction that wrote
nothing, `int i1` having no initialiser. The null character and 0 stand in for the two here;
`fromStringChecked` marks the inputs on which either occurs. -/
def fromString (Size : Nat) (str : List Char) : Hex Size :=
  { arr := (List.range Size).map (fun i =>
      toUInt8 ((readHex [str.getD (i * 2) '\x00', str.getD (i * 2 + 1) '\x00']).getD 0))
    str := str }

/-- The constructor `Hex(const std::array<uint8_t, Size> &arr)`. -/
def fromArray (Size : Nat) (arr : List Nat) : Hex Size :=
  { arr := arr
    str := arr.foldl (fun ss c => ss ++ writeHex c) [] }

/-- The accessor `data()`. -/
def data {Size : Nat} (h : Hex Size) : List Nat := h.arr

/-- The accessor `string()`. -/
def string {Size : Nat} (h : Hex Size) : List Char := h.str

/-- The read `str[k]` of a `const std::string`: the character when `k` is in bounds, the
null character at `k = str.size()`, and undefined (`none`) further out. -/
def readChar (str : List Char) (k : Nat) : Option Char :=
  if k < str.length then str[k]? else if k = str.length then some '\x00' else none

/-- One iteration of the loop of `Hex(const std::string &str)`: the byte assigned to `arr[i]`,
or `none` when the iteration reads `str` out of bounds or reads an `i1` that the extraction
did not write. -/
def decodeAt (str : List Char) (i : Nat) : Option Nat :=
  match readChar str (i * 2), readChar str (i * 2 + 1) with
  | some c1, some c2 => (readHex [c1, c2]).map toUInt8
  | _, _ => none

/-- The loop of `Hex(const std::string &str)` over the indices `is`: the bytes assigned, or
`none` when an iteration has undefined behaviour. -/
def decodeLoop (str : List Char) : List Nat → Option (List Nat)
  | [] => some []
  | i :: rest =>
    match decodeAt str i, decodeLoop str rest with
    | some b, some bs => some (b :: bs)
    | _, _ => none

/-- The constructor `Hex(const std::string &str)` with undefined behaviour made explicit:
`none` when the body has undefined behaviour, the constructed value otherwise. -/
def fromStringChecked (Size : Nat) (str : List Char) : Option (Hex Size) :=
  (decodeLoop str (List.range Size)).map (fun arr => { arr := arr, str := str })

/-- Construction of a `Hex` from a string seen as an operation that may fail. The constructor
body has no `throw` and inspects neither the length nor the extraction state, so a call whose
behaviour is defined returns the constructed value (`some (Except.ok _)`); `none` is undefined
behaviour. -/
def construct (Size : Nat) (str : List Char) : Option (Except Failure (Hex Size)) :=
  (fromStringChecked Size str).map Except.ok

end Hex

/-- The characters the specification calls hexadecimal digits. -/
def isHexChar (c : Char) : Prop := c ∈ "0123456789abcdefABCDEF".toList

instance isHexChar.decidable (c : Char) : Decidable (isHexChar c) :=
  inferInstanceAs (Decidable (c ∈ "0123456789abcdefABCDEF".toList))

/-- The value of a hexadecimal digit in the words of the specification: `'0'`-`'9'`,
`'a'`-`'f'` and `'A'`-`'F'` map to 0..15. -/
def hexValue (c : Char) : Nat :=
  if '0' ≤ c ∧ c ≤ '9' then c.toNat - 48
  else if 'a' ≤ c ∧ c ≤ 'f' then c.toNat - 97 + 10
  else if 'A' ≤ c ∧ c ≤ 'F' then c.toNat - 65 + 10
  else 0

/-- The lowercase form of a string. -/
def lowercase (s : List Char) : List Char := s.map Char.toLower


/-- The characters of a lowercase hexadecimal string: `0`-`9` and `a`-`f`. -/
def isLowerHexChar (c : Char) : Prop := c ∈ "0123456789abcdef".toList

instance isLowerHexChar.decidable (c : Char) : Decidable (isLowerHexChar c) :=
  inferInstanceAs (Decidable (c ∈ "0123456789abcdef".toList))

/-- Construction of a `Hex` from a byte array seen as an operation that may fail: the
constructor body has no `throw`, so every call returns the constructed value. -/
def Hex.constructArray (Size : Nat) (arr : List Nat) : Except Failure (Hex Size) :=
  Except.ok (Hex.fromArray Size arr)

namespace MemoryInfo

/-- The re-wrapping call `MemoryInfo(L.file(), L.offset(), L.size(), false)`: the `int` result
of `file()` is converted to the `uint8_t` parameter and the `size_t` results of `offset()` and
`size()` to the `uint32_t` parameters. -/
def rewrap (L : Casc.MemoryInfo) : Casc.MemoryInfo :=
  MemoryInfo (toUInt8 (file L)) (offset L % 2 ^ 32) (size L % 2 ^ 32) false

end MemoryInfo

/-! ## The bitset operations, position by position

Each arithmetic definition of the `Bitset` namespace is characterised by the bit it leaves at
every position `j`, which is how `std::bitset` specifies the operation. -/

theorem Bitset.test_eq_testBit (b i : Nat) : Bitset.test b i = b.testBit i := by
  rw [Bitset.test, Nat.testBit_to_div_mod]

theorem Bitset.test_ofNat (N v j : Nat) :
    Bitset.test (Bitset.ofNat N v) j = (decide (j < N) && Bitset.test v j) := by
  simp only [Bitset.test_eq_testBit, Bitset.ofNat, Nat.testBit_mod_two_pow]

theorem Bitset.test_shr (b k j : Nat) :
    Bitset.test (Bitset.shr b k) j = Bitset.test b (k + j) := by
  simp only [Bitset.test_eq_testBit, Bitset.shr, ← Nat.shiftRight_eq_div_pow, Nat.testBit_shiftRight]

theorem Bitset.test_shl (N b k j : Nat) :
    Bitset.test (Bitset.shl N b k) j =
      (decide (j < N) && (decide (k ≤ j) && Bitset.test b (j - k))) := by
  simp only [Bitset.test_eq_testBit, Bitset.shl, Nat.testBit_mod_two_pow, ← Nat.shiftLeft_eq,
    Nat.testBit_shiftLeft]

theorem Bitset.test_assign (b i j : Nat) (v : Bool) :
    Bitset.test (Bitset.assign b i v) j = if j = i then v else Bitset.test b j := by
  have hlt : b % 2 ^ i < 2 ^ i := Nat.mod_lt _ (by positivity)
  have hv : (if v then 1 else 0 : Nat) < 2 ^ 1 := by split <;> norm_num
  have hx : Bitset.assign b i v =
      2 ^ i * (2 ^ 1 * (b / 2 ^ (i + 1)) + (if v then 1 else 0)) + b % 2 ^ i := by
    simp only [Bitset.assign]
    split <;> ring
  rw [Bitset.test_eq_testBit, hx, Nat.testBit_mul_pow_two_add _ hlt]
  by_cases h1 : j < i
  · rw [if_pos h1, if_neg (by omega), Nat.testBit_mod_two_pow, Bitset.test_eq_testBit]
    simp [h1]
  · rw [if_neg h1, Nat.testBit_mul_pow_two_add _ hv]
    by_cases h2 : j = i
    · subst h2
      cases v <;> simp
    · have h3 : ¬ (j - i < 1) := by omega
      rw [if_neg h3, if_neg h2, Bitset.test_eq_testBit, ← Nat.shiftRight_eq_div_pow,
        Nat.testBit_shiftRight]
      congr 1
      omega
/-! ## Closed forms -/

theorem writeBE_four (v : Nat) :
    writeBE 4 v = [v / 16777216 % 256, v / 65536 % 256, v / 256 % 256, v % 256] := by
  simp [writeBE]

theorem writeBE_one (v : Nat) : writeBE 1 v = [v % 256] := by
  simp [writeBE]

theorem readBE_four (a b c d : Nat) :
    readBE [a, b, c, d] = ((a * 256 + b) * 256 + c) * 256 + d := by
  simp [readBE]

theorem readBE_writeBE_four (v : Nat) (hv : v < 2 ^ 32) : readBE (writeBE 4 v) = v := by
  rw [writeBE_four, readBE_four]
  omega

theorem toInt_of_lt (v : Nat) (h : v < 2 ^ 31) : toInt v = (v : Int) := by
  have h1 : v % 2 ^ 32 = v := Nat.mod_eq_of_lt (by omega)
  simp only [toInt, h1]
  rw [if_pos h]

theorem memoryInfo_shifted_eq (file offset length : Nat) (ho : offset < 2 ^ 32) :
    MemoryInfo.MemoryInfo file offset length true =
      { file_ := file * 4 % 256 + offset / 2 ^ 30, offset_ := offset % 2 ^ 30, size_ := length } := by
  simp only [MemoryInfo.MemoryInfo, Bitset.ofNat, Bitset.shl, Bitset.assign, Bitset.test,
    Bitset.to_ulong, if_true]
  norm_num
  constructor
  · split_ifs <;> omega
  · omega

theorem memoryInfo_unshifted_eq (file offset length : Nat) :
    MemoryInfo.MemoryInfo file offset length false =
      { file_ := file, offset_ := offset, size_ := length } := by
  simp [MemoryInfo.MemoryInfo]

theorem offsetBits_restore (f o : Nat) :
    Bitset.to_ulong (Bitset.assign (Bitset.assign (Bitset.ofNat 32 o) 30
      (Bitset.test (Bitset.ofNat 8 f) 0)) 31 (Bitset.test (Bitset.ofNat 8 f) 1)) % 2 ^ 32 =
      o % 2 ^ 30 + f % 4 * 2 ^ 30 := by
  simp only [Bitset.ofNat, Bitset.assign, Bitset.test, Bitset.to_ulong]
  norm_num
  split_ifs <;> omega

theorem fileBits_restore (f : Nat) :
    Bitset.to_ulong (Bitset.shr (Bitset.assign (Bitset.assign (Bitset.ofNat 8 f) 0 false) 1 false) 2)
      % 2 ^ 8 = f % 256 / 4 := by
  simp only [Bitset.ofNat, Bitset.assign, Bitset.shr, Bitset.to_ulong]
  norm_num
  omega

theorem bytes_offset_eq (m : MemoryInfo) (hf : m.file_ < 256) :
    MemoryInfo.bytes BytesType.Offset m =
      (m.file_ / 4) :: writeBE 4 (m.offset_ % 2 ^ 30 + m.file_ % 4 * 2 ^ 30) := by
  have h1 : m.file_ % 256 = m.file_ := Nat.mod_eq_of_lt hf
  have h2 : m.file_ / 4 % 256 = m.file_ / 4 := Nat.mod_eq_of_lt (by omega)
  simp only [MemoryInfo.bytes, offsetBits_restore m.file_ m.offset_, fileBits_restore,
    writeBE_one, h1, h2, List.singleton_append]

theorem bytes_count_eq (m : MemoryInfo) :
    MemoryInfo.bytes BytesType.Count m = 0 :: writeBE 4 (m.size_ % 2 ^ 32) := by
  simp only [MemoryInfo.bytes, List.singleton_append]

/-! ## Block locator: the claims -/

/-- C1: at `file = 64`, `offset = 0` the packed locator serialises in Offset mode to five zero
bytes, and re-parsing those bytes unpacked gives `file() = 0`, not the original 64. -/
theorem roundtrip_file_64_diverges :
    MemoryInfo.bytes BytesType.Offset (MemoryInfo.MemoryInfo 64 0 0 true) = [0, 0, 0, 0, 0] ∧
    (MemoryInfo.reparse
      (MemoryInfo.bytes BytesType.Offset (MemoryInfo.MemoryInfo 64 0 0 true)) 0).file = 0 ∧
    (MemoryInfo.reparse
      (MemoryInfo.bytes BytesType.Offset (MemoryInfo.MemoryInfo 64 0 0 true)) 0).file ≠ 64 ∧
    (MemoryInfo.reparse
      (MemoryInfo.bytes BytesType.Offset (MemoryInfo.MemoryInfo 64 0 0 true)) 0).offset = 0 := by
  decide

/-- C2: at `file = 64`, `offset = 0` the packed constructor stores `file() = 0`, whereas the
untruncated value `(file << 2) | (offset >> 30)` is 256. -/
theorem packed_file_64_truncated :
    (MemoryInfo.MemoryInfo 64 0 0 true).file = 0 ∧ ((64 <<< 2) ||| (0 >>> 30) : Nat) = 256 := by
  decide

/-- C3: bit donation. For an 8-bit `file` and a 32-bit `offset` the packed locator has bit 0
of `file()` equal to bit 30 of `offset`, bit 1 of `file()` equal to bit 31 of `offset`, that is
`file() mod 4 = offset div 2^30`, and `offset() = offset mod 2^30`. -/
theorem bit_donation (file offset size : Nat) (_hf : file < 256) (ho : offset < 2 ^ 32) :
    0 ≤ (MemoryInfo.MemoryInfo file offset size true).file ∧
    (MemoryInfo.MemoryInfo file offset size true).file.toNat.testBit 0 = offset.testBit 30 ∧
    (MemoryInfo.MemoryInfo file offset size true).file.toNat.testBit 1 = offset.testBit 31 ∧
    (MemoryInfo.MemoryInfo file offset size true).file % 4 = ((offset / 2 ^ 30 : Nat) : Int) ∧
    (MemoryInfo.MemoryInfo file offset size true).offset = offset % 2 ^ 30 := by
  generalize hLdef : MemoryInfo.MemoryInfo file offset size true = L
  have hL : L = ⟨file * 4 % 256 + offset / 2 ^ 30, offset % 2 ^ 30, size⟩ :=
    hLdef ▸ memoryInfo_shifted_eq file offset size ho
  have hlt : file * 4 % 256 + offset / 2 ^ 30 < 2 ^ 31 := by omega
  have hfile : L.file = ((file * 4 % 256 + offset / 2 ^ 30 : Nat) : Int) := by
    rw [hL]; exact toInt_of_lt _ hlt
  rw [hfile, Int.toNat_ofNat]
  refine ⟨Int.ofNat_nonneg _, ?_, ?_, ?_, ?_⟩
  · simp only [Nat.testBit_to_div_mod]
    congr 1
    norm_num
    omega
  · simp only [Nat.testBit_to_div_mod]
    congr 1
    norm_num
    omega
  · omega
  · rw [hL]; rfl

/-- The witness of `bit_donation` from the specification: `file = 3`, `offset = 0xC0000000`
give `file() = 15` and `offset() = 0`. -/
theorem bit_donation_witness :
    (MemoryInfo.MemoryInfo 3 0xC0000000 0 true).file = 15 ∧
    (MemoryInfo.MemoryInfo 3 0xC0000000 0 true).offset = 0 ∧
    (MemoryInfo.MemoryInfo 3 0xC0000000 0 true).file % 4 = ((0xC0000000 / 2 ^ 30 : Nat) : Int) :=
  ⟨by decide, by decide, (bit_donation 3 0xC0000000 0 (by decide) (by decide)).2.2.2.1⟩

theorem constructed_bounds (file offset size : Nat) (Shifted : Bool) (hf : file < 256)
    (ho : offset < 2 ^ 32) :
    (MemoryInfo.MemoryInfo file offset size Shifted).file_ < 256 ∧
    (MemoryInfo.MemoryInfo file offset size Shifted).offset_ < 2 ^ 32 ∧
    (MemoryInfo.MemoryInfo file offset size Shifted).size_ = size := by
  cases Shifted
  · rw [memoryInfo_unshifted_eq]; exact ⟨hf, ho, rfl⟩
  · rw [memoryInfo_shifted_eq file offset size ho]
    refine ⟨?_, ?_, rfl⟩
    · show file * 4 % 256 + offset / 2 ^ 30 < 256
      omega
    · show offset % 2 ^ 30 < 2 ^ 32
      omega

/-- C4: Offset-mode serialisation of a constructed locator (either `Shifted` flag) is exactly
five bytes: byte 0 is `file() >> 2`, bytes 1 to 4 are the big-endian encoding of
`(offset() mod 2^30) + (file() mod 4) * 2^30`, a 32-bit value; the bytes do not depend on the
size argument. -/
theorem bytes_offset_stored (file offset size : Nat) (Shifted : Bool) (hf : file < 256)
    (ho : offset < 2 ^ 32) (_hs : size < 2 ^ 32) :
    0 ≤ (MemoryInfo.MemoryInfo file offset size Shifted).file ∧
    MemoryInfo.bytes BytesType.Offset (MemoryInfo.MemoryInfo file offset size Shifted) =
      ((MemoryInfo.MemoryInfo file offset size Shifted).file / 4).toNat ::
        writeBE 4 ((MemoryInfo.MemoryInfo file offset size Shifted).offset % 2 ^ 30 +
          ((MemoryInfo.MemoryInfo file offset size Shifted).file % 4).toNat * 2 ^ 30) ∧
    (MemoryInfo.MemoryInfo file offset size Shifted).offset % 2 ^ 30 +
      ((MemoryInfo.MemoryInfo file offset size Shifted).file % 4).toNat * 2 ^ 30 < 2 ^ 32 ∧
    (MemoryInfo.bytes BytesType.Offset (MemoryInfo.MemoryInfo file offset size Shifted)).length = 5 ∧
    ∀ size2 : Nat,
      MemoryInfo.bytes BytesType.Offset (MemoryInfo.MemoryInfo file offset size2 Shifted) =
        MemoryInfo.bytes BytesType.Offset (MemoryInfo.MemoryInfo file offset size Shifted) := by
  have hb := constructed_bounds file offset size Shifted hf ho
  generalize hLdef : MemoryInfo.MemoryInfo file offset size Shifted = L at hb ⊢
  obtain ⟨hb1, _, _⟩ := hb
  have hfile : L.file = (L.file_ : Int) := toInt_of_lt _ (by omega)
  have h4 : (L.file / 4).toNat = L.file_ / 4 := by rw [hfile]; omega
  have hm : (L.file % 4).toNat = L.file_ % 4 := by rw [hfile]; omega
  have hbytes := bytes_offset_eq L hb1
  refine ⟨by rw [hfile]; exact Int.ofNat_nonneg _, ?_, ?_, ?_, ?_⟩
  · rw [h4, hm]; exact hbytes
  · rw [hm]; omega
  · rw [hbytes, writeBE_four]; rfl
  · intro size2
    have hb2 := (constructed_bounds file offset size2 Shifted hf ho).1
    rw [hbytes, bytes_offset_eq _ hb2]
    subst hLdef
    cases Shifted
    · simp only [memoryInfo_unshifted_eq]
    · simp only [memoryInfo_shifted_eq _ _ _ ho]

/-- The witness of `bytes_offset_stored` from the specification: `file = 0x05`,
`offset = 0x10` serialise to the bytes `05 00 00 00 10`. -/
theorem bytes_offset_stored_witness :
    MemoryInfo.bytes BytesType.Offset (MemoryInfo.MemoryInfo 5 16 7 true) = [5, 0, 0, 0, 16] ∧
    (MemoryInfo.bytes BytesType.Offset (MemoryInfo.MemoryInfo 5 16 7 true)).length = 5 :=
  ⟨by decide, (bytes_offset_stored 5 16 7 true (by decide) (by decide) (by decide)).2.2.2.1⟩

/-- C5, as stated, fails: for `size = 0x01020304` the Count-mode output is the five bytes
`00 01 02 03 04`, not the four bytes `01 02 03 04`. -/
theorem bytes_count_not_four :
    ¬ (MemoryInfo.bytes BytesType.Count (MemoryInfo.MemoryInfo 0 0 0x01020304 true) =
        writeBE 4 (MemoryInfo.MemoryInfo 0 0 0x01020304 true).size ∧
      (MemoryInfo.bytes BytesType.Count (MemoryInfo.MemoryInfo 0 0 0x01020304 true)).length = 4) := by
  decide

/-- C5, amended: for every locator the Count-mode output is five bytes, a zero byte followed
by the 4-byte big-endian encoding of `size()`. -/
theorem bytes_count_stored (L : MemoryInfo) :
    MemoryInfo.bytes BytesType.Count L = 0 :: writeBE 4 L.size ∧
    (MemoryInfo.bytes BytesType.Count L).length = 5 := by
  have h : writeBE 4 (L.size_ % 2 ^ 32) = writeBE 4 L.size_ := by
    rw [writeBE_four, writeBE_four]
    norm_num
    refine ⟨?_, ?_, ?_⟩ <;> omega
  rw [bytes_count_eq, h]
  exact ⟨rfl, by rw [writeBE_four]; rfl⟩

/-- C6, as stated, fails: constructing a packed locator with `offset = 2^30` does not fail
with `InvalidRange`; it returns the locator with stored file 1 and stored offset 0. -/
theorem construct_offset_two_pow_30_accepted :
    MemoryInfo.construct 0 (2 ^ 30) 0 true ≠ Except.error Failure.InvalidRange ∧
    MemoryInfo.construct 0 (2 ^ 30) 0 true = Except.ok ⟨1, 0, 0⟩ := by
  constructor
  · intro h; cases h
  · exact congrArg Except.ok (by decide)

/-- C6, amended: construction never fails, whatever the arguments; in particular
`MemoryInfo(file, 2^30, size, true)` returns a locator with `offset() = 0`,
`file() mod 4 = 1` (bit 30 of the offset is donated to bit 0 of the file) and `size() = size`. -/
theorem memoryInfo_construct_never_fails (file offset size : Nat) (Shifted : Bool) :
    MemoryInfo.construct file offset size Shifted =
      Except.ok (MemoryInfo.MemoryInfo file offset size Shifted) ∧
    (∀ e, MemoryInfo.construct file offset size Shifted ≠ Except.error e) ∧
    (MemoryInfo.MemoryInfo file (2 ^ 30) size true).offset = 0 ∧
    (MemoryInfo.MemoryInfo file (2 ^ 30) size true).file % 4 = 1 ∧
    (MemoryInfo.MemoryInfo file (2 ^ 30) size true).size = size := by
  have hL := memoryInfo_shifted_eq file (2 ^ 30) size (by norm_num)
  refine ⟨rfl, ?_, ?_, ?_, ?_⟩
  · intro e h; cases h
  · rw [hL]; rfl
  · rw [hL]
    have : MemoryInfo.file ⟨file * 4 % 256 + 2 ^ 30 / 2 ^ 30, 2 ^ 30 % 2 ^ 30, size⟩ =
        ((file * 4 % 256 + 2 ^ 30 / 2 ^ 30 : Nat) : Int) :=
      toInt_of_lt _ (by show file * 4 % 256 + 2 ^ 30 / 2 ^ 30 < 2 ^ 31; omega)
    rw [this]
    omega
  · rw [hL]; rfl

/-! ## Hex codec: auxiliary facts -/

set_option maxRecDepth 100000 in
theorem writeHex_byte : ∀ x, x < 256 →
    writeHex x = [Nat.digitChar (x / 16), Nat.digitChar (x % 16)] := by
  decide

set_option maxRecDepth 100000 in
theorem readHex_writeHex : ∀ x, x < 256 →
    toUInt8 ((readHex [Nat.digitChar (x / 16), Nat.digitChar (x % 16)]).getD 0) = x := by
  decide

set_option maxRecDepth 100000 in
theorem readHex_pair : ∀ c1 ∈ "0123456789abcdefABCDEF".toList,
    ∀ c2 ∈ "0123456789abcdefABCDEF".toList,
    toUInt8 ((readHex [c1, c2]).getD 0) = 16 * hexValue c1 + hexValue c2 := by
  decide

theorem foldl_writeHex (arr : List Nat) (init : List Char) :
    arr.foldl (fun ss c => ss ++ writeHex c) init = init ++ arr.flatMap writeHex := by
  induction arr generalizing init with
  | nil => simp
  | cons x t ih => simp [List.foldl_cons, ih, List.flatMap_cons, List.append_assoc]

theorem fromArray_string (Size : Nat) (arr : List Nat) :
    (Hex.fromArray Size arr).string = arr.flatMap writeHex := by
  simp [Hex.fromArray, Hex.string, foldl_writeHex]

theorem readHex_flatMap (d : Char) (b : List Nat) (hb : ∀ x ∈ b, x < 256) (i : Nat)
    (hi : i < b.length) :
    toUInt8 ((readHex [(b.flatMap writeHex).getD (i * 2) d,
      (b.flatMap writeHex).getD (i * 2 + 1) d]).getD 0) = b[i] := by
  induction b generalizing i with
  | nil => simp at hi
  | cons x t ih =>
    have hx : x < 256 := hb x (List.mem_cons_self x t)
    have ht : ∀ y ∈ t, y < 256 := fun y hy => hb y (List.mem_cons_of_mem x hy)
    rw [List.flatMap_cons, writeHex_byte x hx]
    cases i with
    | zero => simpa using readHex_writeHex x hx
    | succ j =>
      have hj : j < t.length := by simpa using hi
      have e1 : (j + 1) * 2 = j * 2 + 1 + 1 := by ring
      rw [e1]
      simpa using ih ht j hj

theorem lowercase_eq_self_iff (s : List Char) :
    lowercase s = s ↔ ∀ c ∈ s, c.toLower = c := by
  induction s with
  | nil => simp [lowercase]
  | cons x t ih =>
    simp only [lowercase, List.map_cons, List.cons.injEq, List.mem_cons, forall_eq_or_imp]
    exact and_congr Iff.rfl ih

/-! ## Hex codec: the claims -/

/-- C7: for every `Size` and every array `b` of `Size` bytes, decoding the string produced by
the byte-array constructor recovers `b`: `Hex(Hex(b).string()).data() = b`. -/
theorem hex_roundtrip_bytes (Size : Nat) (b : List Nat) (hlen : b.length = Size)
    (hb : ∀ x ∈ b, x < 256) :
    (Hex.fromString Size (Hex.fromArray Size b).string).data = b := by
  rw [fromArray_string]
  apply List.ext_getElem
  · simp [Hex.fromString, Hex.data, hlen]
  · intro i h1 h2
    simp only [Hex.fromString, Hex.data, List.getElem_map, List.getElem_range]
    exact readHex_flatMap _ b hb i h2

/-- The witness of `hex_roundtrip_bytes`: the three bytes `00 1f a0`. -/
theorem hex_roundtrip_bytes_witness :
    (Hex.fromString 3 (Hex.fromArray 3 [0, 0x1f, 0xa0]).string).data = [0, 0x1f, 0xa0] :=
  hex_roundtrip_bytes 3 [0, 0x1f, 0xa0] (by decide) (by decide)

/-- C8, as stated, fails: the string `"AB"` has exactly two hexadecimal characters, and
`Hex<1>("AB").string()` is `"AB"`, not its lowercase form `"ab"`. -/
theorem hex_string_not_lowercased :
    "AB".toList.length = 2 * 1 ∧ (∀ c ∈ "AB".toList, isHexChar c) ∧
    (Hex.fromString 1 "AB".toList).string = "AB".toList ∧
    (Hex.fromString 1 "AB".toList).string ≠ lowercase "AB".toList := by
  decide

/-- C8, amended: for every `Size` and every string `s` of exactly `2 * Size` hexadecimal
characters in any letter case, `Hex(s).string()` is `s` itself, unchanged; it is the lowercase
form of `s` exactly when no character of `s` is changed by lowercasing. -/
theorem hex_string_verbatim (Size : Nat) (s : List Char) (_hlen : s.length = 2 * Size)
    (_hs : ∀ c ∈ s, isHexChar c) :
    (Hex.fromString Size s).string = s ∧
    ((Hex.fromString Size s).string = lowercase s ↔ ∀ c ∈ s, c.toLower = c) := by
  have h : (Hex.fromString Size s).string = s := rfl
  refine ⟨h, ?_⟩
  rw [h, ← lowercase_eq_self_iff]
  exact eq_comm

/-- The witness of `hex_string_verbatim`: the mixed-case string `"aBc9"`. -/
theorem hex_string_verbatim_witness :
    (Hex.fromString 2 "aBc9".toList).string = "aBc9".toList :=
  (hex_string_verbatim 2 "aBc9".toList (by decide) (by decide)).1

theorem readChar_of_le (s : List Char) (k : Nat) (hk : k ≤ s.length) :
    Hex.readChar s k = some (s.getD k '\x00') := by
  unfold Hex.readChar
  by_cases h : k < s.length
  · rw [if_pos h, List.getD_eq_getElem _ _ h, List.getElem?_eq_getElem h]
  · have hk2 : k = s.length := by omega
    rw [if_neg h, if_pos hk2, List.getD_eq_default _ _ (by omega)]

theorem readHex_written (c1 c2 : Char) (h : ¬ (isSpace c1 = true ∧ isSpace c2 = true)) :
    ∃ v, readHex [c1, c2] = some v := by
  by_cases h1 : isSpace c1 = true
  · have h2 : isSpace c2 = false := by
      cases hc : isSpace c2
      · rfl
      · exact absurd ⟨h1, hc⟩ h
    simp [readHex, List.dropWhile, h1, h2]
  · have h1f : isSpace c1 = false := by simpa using h1
    simp [readHex, List.dropWhile, h1f]

theorem decodeAt_defined (s : List Char) (i : Nat) (hk : i * 2 + 1 ≤ s.length)
    (hws : ¬ (isSpace (s.getD (i * 2) '\x00') = true ∧
      isSpace (s.getD (i * 2 + 1) '\x00') = true)) :
    Hex.decodeAt s i = some (toUInt8
      ((readHex [s.getD (i * 2) '\x00', s.getD (i * 2 + 1) '\x00']).getD 0)) := by
  obtain ⟨v, hv⟩ := readHex_written _ _ hws
  simp only [Hex.decodeAt, readChar_of_le s (i * 2) (by omega),
    readChar_of_le s (i * 2 + 1) hk, hv, Option.map_some', Option.getD_some]

theorem decodeLoop_defined (s : List Char) (f : Nat → Nat) (l : List Nat)
    (h : ∀ i ∈ l, Hex.decodeAt s i = some (f i)) :
    Hex.decodeLoop s l = some (l.map f) := by
  induction l with
  | nil => rfl
  | cons i rest ih =>
    have h1 := h i (List.mem_cons_self i rest)
    have h2 := ih (fun j hj => h j (List.mem_cons_of_mem i hj))
    simp only [Hex.decodeLoop, h1, h2, List.map_cons]

theorem fromStringChecked_defined (Size : Nat) (s : List Char) (hlen : 2 * Size ≤ s.length + 1)
    (hws : ∀ i, i < Size → ¬ (isSpace (s.getD (i * 2) '\x00') = true ∧
      isSpace (s.getD (i * 2 + 1) '\x00') = true)) :
    Hex.fromStringChecked Size s = some (Hex.fromString Size s) := by
  have h := decodeLoop_defined s
    (fun i => toUInt8 ((readHex [s.getD (i * 2) '\x00', s.getD (i * 2 + 1) '\x00']).getD 0))
    (List.range Size)
    (fun i hi => by
      have hi2 : i < Size := List.mem_range.mp hi
      exact decodeAt_defined s i (by omega) (hws i hi2))
  simp only [Hex.fromStringChecked, h, Option.map_some', Hex.fromString]

theorem fromStringChecked_undefined :
    Hex.fromStringChecked 2 "ab  ".toList = none ∧
    Hex.fromStringChecked 2 "ab".toList = none ∧
    Hex.construct 2 "ab  ".toList = none := by
  have h : Hex.fromStringChecked 2 "ab  ".toList = none := by decide
  refine ⟨h, by decide, ?_⟩
  rw [Hex.construct, h]
  rfl

theorem isSpace_hexChar : ∀ c ∈ "0123456789abcdefABCDEF".toList, isSpace c = false := by
  decide

theorem fromStringChecked_hex (Size : Nat) (s : List Char) (hlen : s.length = 2 * Size)
    (hs : ∀ c ∈ s, isHexChar c) :
    Hex.fromStringChecked Size s = some (Hex.fromString Size s) := by
  apply fromStringChecked_defined Size s (by omega)
  intro i hi hboth
  have h0 : i * 2 < s.length := by omega
  have hmem : isHexChar (s.getD (i * 2) '\x00') := by
    rw [List.getD_eq_getElem _ _ h0]
    exact hs _ (List.getElem_mem h0)
  rw [isSpace_hexChar _ hmem] at hboth
  exact absurd hboth.1 (by decide)

/-- C9, as stated, fails: `Hex<1>("abc")`, whose argument has the odd length 3, yields the
value with bytes `[0xab]` and string `"abc"`; and `Hex<1>("zz")`, whose argument holds no
hexadecimal digit, yields the value with bytes `[0]` and string `"zz"` instead of failing
with `InvalidEncoding`. -/
theorem hex_malformed_accepted :
    "abc".toList.length ≠ 2 * 1 ∧
    Hex.construct 1 "abc".toList = some (Except.ok ⟨[0xab], "abc".toList⟩) ∧
    (¬ ∀ c ∈ "zz".toList, isHexChar c) ∧
    Hex.construct 1 "zz".toList = some (Except.ok ⟨[0], "zz".toList⟩) ∧
    Hex.construct 1 "zz".toList ≠ some (Except.error Failure.InvalidEncoding) := by
  have h1 : Hex.fromStringChecked 1 "abc".toList = some ⟨[0xab], "abc".toList⟩ := by decide
  have h2 : Hex.fromStringChecked 1 "zz".toList = some ⟨[0], "zz".toList⟩ := by decide
  refine ⟨by decide, ?_, by decide, ?_, ?_⟩
  · rw [Hex.construct, h1]; rfl
  · rw [Hex.construct, h2]; rfl
  · rw [Hex.construct, h2]
    intro h
    cases h

/-- C9, amended: for every `Size` and every string `s` of length at least `2 * Size - 1` in
which no pair of characters `2i`, `2i+1` with `i < Size` is white space only, whatever its
length beyond that and whatever its other characters, construction has defined behaviour and
does not fail: it yields a `Hex` value whose `string()` is `s` and whose `data()` has `Size`
bytes. -/
theorem hex_construct_never_fails (Size : Nat) (s : List Char) (hlen : 2 * Size ≤ s.length + 1)
    (hws : ∀ i, i < Size → ¬ (isSpace (s.getD (i * 2) '\x00') = true ∧
      isSpace (s.getD (i * 2 + 1) '\x00') = true)) :
    (∃ h : Hex Size, Hex.construct Size s = some (Except.ok h) ∧
      h.string = s ∧ h.data.length = Size) ∧
    (∀ e, Hex.construct Size s ≠ some (Except.error e)) := by
  have hc : Hex.construct Size s = some (Except.ok (Hex.fromString Size s)) := by
    rw [Hex.construct, fromStringChecked_defined Size s hlen hws]; rfl
  refine ⟨⟨Hex.fromString Size s, hc, rfl, ?_⟩, ?_⟩
  · simp [Hex.fromString, Hex.data]
  · intro e h
    rw [hc] at h
    cases h

/-- The witness of `hex_construct_never_fails`: the string `"zz"`. -/
theorem hex_construct_never_fails_witness :
    ∃ h : Hex 1, Hex.construct 1 "zz".toList = some (Except.ok h) ∧
      h.string = "zz".toList ∧ h.data.length = 1 :=
  (hex_construct_never_fails 1 "zz".toList (by decide) (by decide)).1

/-- C10: for every `Size` and every string `s` of exactly `2 * Size` hexadecimal digits,
`Hex(s).data()` has `Size` bytes and byte `i` is `16 * value(s[2i]) + value(s[2i+1])`. -/
theorem hex_decode (Size : Nat) (s : List Char) (hlen : s.length = 2 * Size)
    (hs : ∀ c ∈ s, isHexChar c) :
    (Hex.fromString Size s).data.length = Size ∧
    ∀ i (hi : i < Size),
      (Hex.fromString Size s).data[i]? = some (16 * hexValue s[2 * i] + hexValue s[2 * i + 1]) := by
  have hl : (Hex.fromString Size s).data.length = Size := by simp [Hex.fromString, Hex.data]
  refine ⟨hl, ?_⟩
  intro i hi
  have h0 : i * 2 < s.length := by omega
  have h1 : i * 2 + 1 < s.length := by omega
  have e0 : s.getD (i * 2) '\x00' = s[2 * i] := by
    rw [List.getD_eq_getElem _ _ h0]; congr 1; omega
  have e1 : s.getD (i * 2 + 1) '\x00' = s[2 * i + 1] := by
    rw [List.getD_eq_getElem _ _ h1]; congr 1; omega
  rw [List.getElem?_eq_getElem (by rw [hl]; exact hi)]
  simp only [Hex.fromString, Hex.data, List.getElem_map, List.getElem_range, e0, e1]
  exact congrArg some (readHex_pair _ (hs _ (List.getElem_mem _)) _ (hs _ (List.getElem_mem _)))

/-- The witness of `hex_decode`: `"aBc9"` decodes to the bytes `ab c9`. -/
theorem hex_decode_witness :
    (Hex.fromString 2 "aBc9".toList).data = [0xab, 0xc9] ∧
    (Hex.fromString 2 "aBc9".toList).data[1]? = some (16 * hexValue 'c' + hexValue '9') :=
  ⟨by decide, (hex_decode 2 "aBc9".toList (by decide) (by decide)).2 1 (by decide)⟩

/-! ## Hex codec: the encoder -/

set_option maxRecDepth 100000 in
theorem digitChar_nibble : ∀ n, n < 16 →
    isLowerHexChar (Nat.digitChar n) ∧ hexValue (Nat.digitChar n) = n := by
  decide

theorem flatMap_writeHex_length (b : List Nat) (hb : ∀ x ∈ b, x < 256) :
    (b.flatMap writeHex).length = 2 * b.length := by
  induction b with
  | nil => simp
  | cons x t ih =>
    have hx : x < 256 := hb x (List.mem_cons_self x t)
    have ht : ∀ y ∈ t, y < 256 := fun y hy => hb y (List.mem_cons_of_mem x hy)
    rw [List.flatMap_cons, writeHex_byte x hx, List.length_append, ih ht]
    simp only [List.length_cons, List.length_nil]
    omega

theorem flatMap_writeHex_getD (d : Char) (b : List Nat) (hb : ∀ x ∈ b, x < 256) (i : Nat)
    (hi : i < b.length) :
    (b.flatMap writeHex).getD (i * 2) d = Nat.digitChar (b[i] / 16) ∧
    (b.flatMap writeHex).getD (i * 2 + 1) d = Nat.digitChar (b[i] % 16) := by
  induction b generalizing i with
  | nil => simp at hi
  | cons x t ih =>
    have hx : x < 256 := hb x (List.mem_cons_self x t)
    have ht : ∀ y ∈ t, y < 256 := fun y hy => hb y (List.mem_cons_of_mem x hy)
    rw [List.flatMap_cons, writeHex_byte x hx]
    cases i with
    | zero => simp
    | succ j =>
      have hj : j < t.length := by simpa using hi
      have e1 : (j + 1) * 2 = j * 2 + 1 + 1 := by ring
      rw [e1]
      simpa using ih ht j hj

theorem flatMap_writeHex_mem (b : List Nat) (hb : ∀ x ∈ b, x < 256) :
    ∀ c ∈ b.flatMap writeHex, isLowerHexChar c := by
  intro c hc
  obtain ⟨x, hx, hcx⟩ := List.mem_flatMap.mp hc
  rw [writeHex_byte x (hb x hx)] at hcx
  have h1 : x / 16 < 16 := by have := hb x hx; omega
  have h2 : x % 16 < 16 := Nat.mod_lt _ (by norm_num)
  rcases List.mem_cons.mp hcx with h | h
  · rw [h]; exact (digitChar_nibble _ h1).1
  · rw [List.mem_singleton.mp h]; exact (digitChar_nibble _ h2).1

/-- C11: for every `Size` and every array `b` of `Size` bytes the byte-array constructor
succeeds; `string()` has exactly `2 * Size` characters, all among `0`-`9` and `a`-`f`;
characters `2i` and `2i+1` are the digits of the high and the low nibble of `b[i]`, a byte
below `0x10` getting the leading digit `'0'`; and `data()` is `b`. -/
theorem hex_encode (Size : Nat) (b : List Nat) (hlen : b.length = Size)
    (hb : ∀ x ∈ b, x < 256) :
    Hex.constructArray Size b = Except.ok (Hex.fromArray Size b) ∧
    (Hex.fromArray Size b).string.length = 2 * Size ∧
    (∀ c ∈ (Hex.fromArray Size b).string, isLowerHexChar c) ∧
    (∀ i (hi : i < Size),
      (Hex.fromArray Size b).string[2 * i]? = some (Nat.digitChar (b[i] / 16)) ∧
      (Hex.fromArray Size b).string[2 * i + 1]? = some (Nat.digitChar (b[i] % 16)) ∧
      ((Hex.fromArray Size b).string[2 * i]?).map hexValue = some (b[i] / 16) ∧
      ((Hex.fromArray Size b).string[2 * i + 1]?).map hexValue = some (b[i] % 16) ∧
      (b[i] < 16 → (Hex.fromArray Size b).string[2 * i]? = some '0')) ∧
    (Hex.fromArray Size b).data = b := by
  rw [fromArray_string]
  have hl := flatMap_writeHex_length b hb
  refine ⟨rfl, by rw [hl, hlen], flatMap_writeHex_mem b hb, ?_, rfl⟩
  intro i hi
  have hib : i < b.length := by omega
  have hbi : b[i] < 256 := hb _ (List.getElem_mem _)
  obtain ⟨g0, g1⟩ := flatMap_writeHex_getD '0' b hb i hib
  have k0 : 2 * i < (b.flatMap writeHex).length := by omega
  have k1 : 2 * i + 1 < (b.flatMap writeHex).length := by omega
  have e0 : (b.flatMap writeHex)[2 * i]? = some (Nat.digitChar (b[i] / 16)) := by
    rw [List.getElem?_eq_getElem k0, ← g0, List.getD_eq_getElem _ _ (by omega)]
    congr 2; omega
  have e1 : (b.flatMap writeHex)[2 * i + 1]? = some (Nat.digitChar (b[i] % 16)) := by
    rw [List.getElem?_eq_getElem k1, ← g1, List.getD_eq_getElem _ _ (by omega)]
    congr 2; omega
  have n0 : b[i] / 16 < 16 := by omega
  have n1 : b[i] % 16 < 16 := Nat.mod_lt _ (by norm_num)
  refine ⟨e0, e1, ?_, ?_, ?_⟩
  · rw [e0, Option.map_some', (digitChar_nibble _ n0).2]
  · rw [e1, Option.map_some', (digitChar_nibble _ n1).2]
  · intro hsmall
    have hz : b[i] / 16 = 0 := by omega
    rw [e0, hz]
    rfl

/-- The witness of `hex_encode`: the bytes `00 1f a0` are written as `"001fa0"`. -/
theorem hex_encode_witness :
    (Hex.fromArray 3 [0, 0x1f, 0xa0]).string = "001fa0".toList ∧
    (Hex.fromArray 3 [0, 0x1f, 0xa0]).string.length = 2 * 3 ∧
    (Hex.fromArray 3 [0, 0x1f, 0xa0]).data = [0, 0x1f, 0xa0] :=
  ⟨by decide, (hex_encode 3 [0, 0x1f, 0xa0] (by decide) (by decide)).2.1,
    (hex_encode 3 [0, 0x1f, 0xa0] (by decide) (by decide)).2.2.2.2⟩

/-! ## Block locator: stored fields and serialised image -/

theorem writeBE_four_mod (v : Nat) : writeBE 4 (v % 2 ^ 32) = writeBE 4 v := by
  rw [writeBE_four, writeBE_four]
  norm_num
  refine ⟨?_, ?_, ?_⟩ <;> omega

theorem shifted_file_eq (file offset size : Nat) (ho : offset < 2 ^ 32) :
    (MemoryInfo.MemoryInfo file offset size true).file =
      ((file * 4 % 256 + offset / 2 ^ 30 : Nat) : Int) := by
  rw [memoryInfo_shifted_eq file offset size ho]
  exact toInt_of_lt _ (by show file * 4 % 256 + offset / 2 ^ 30 < 2 ^ 31; omega)

/-- C12: for an 8-bit `file`, a 32-bit `offset` and a 32-bit `size`, the packed locator `L`
has `file()` in `0 .. 255` and `offset()`, `size()` below `2^32`, so they pass to the
constructor parameters unchanged; and `M = MemoryInfo(L.file(), L.offset(), L.size(), false)`
is `L` again: same `file()`, `offset()`, `size()`, same Offset-mode and Count-mode bytes. -/
theorem rewrap_identity (file offset size : Nat) (_hf : file < 256) (ho : offset < 2 ^ 32)
    (hs : size < 2 ^ 32) :
    (0 ≤ (MemoryInfo.MemoryInfo file offset size true).file ∧
      (MemoryInfo.MemoryInfo file offset size true).file < 256 ∧
      (MemoryInfo.MemoryInfo file offset size true).offset < 2 ^ 32 ∧
      (MemoryInfo.MemoryInfo file offset size true).size < 2 ^ 32) ∧
    MemoryInfo.rewrap (MemoryInfo.MemoryInfo file offset size true) =
      MemoryInfo.MemoryInfo file offset size true ∧
    (MemoryInfo.rewrap (MemoryInfo.MemoryInfo file offset size true)).file =
      (MemoryInfo.MemoryInfo file offset size true).file ∧
    (MemoryInfo.rewrap (MemoryInfo.MemoryInfo file offset size true)).offset =
      (MemoryInfo.MemoryInfo file offset size true).offset ∧
    (MemoryInfo.rewrap (MemoryInfo.MemoryInfo file offset size true)).size =
      (MemoryInfo.MemoryInfo file offset size true).size ∧
    MemoryInfo.bytes BytesType.Offset (MemoryInfo.rewrap (MemoryInfo.MemoryInfo file offset size true)) =
      MemoryInfo.bytes BytesType.Offset (MemoryInfo.MemoryInfo file offset size true) ∧
    MemoryInfo.bytes BytesType.Count (MemoryInfo.rewrap (MemoryInfo.MemoryInfo file offset size true)) =
      MemoryInfo.bytes BytesType.Count (MemoryInfo.MemoryInfo file offset size true) := by
  have hfile := shifted_file_eq file offset size ho
  have hL := memoryInfo_shifted_eq file offset size ho
  have hoff : (MemoryInfo.MemoryInfo file offset size true).offset = offset % 2 ^ 30 := by
    rw [hL]; rfl
  have hsize : (MemoryInfo.MemoryInfo file offset size true).size = size := by
    rw [hL]; rfl
  have hre : MemoryInfo.rewrap (MemoryInfo.MemoryInfo file offset size true) =
      MemoryInfo.MemoryInfo file offset size true := by
    have h1 : toUInt8 ((file * 4 % 256 + offset / 2 ^ 30 : Nat) : Int) =
        file * 4 % 256 + offset / 2 ^ 30 := by
      simp only [toUInt8]; omega
    have h2 : offset % 2 ^ 30 % 2 ^ 32 = offset % 2 ^ 30 := by omega
    have h3 : size % 2 ^ 32 = size := Nat.mod_eq_of_lt hs
    rw [MemoryInfo.rewrap, hfile, hoff, hsize, h1, h2, h3, memoryInfo_unshifted_eq, hL]
  refine ⟨⟨?_, ?_, ?_, ?_⟩, hre, ?_, ?_, ?_, ?_, ?_⟩
  · rw [hfile]; exact Int.ofNat_nonneg _
  · rw [hfile]; omega
  · rw [hoff]; omega
  · rw [hsize]; exact hs
  all_goals rw [hre]

/-- The witness of `rewrap_identity`: `file = 3`, `offset = 0xC0000000`, `size = 7`. -/
theorem rewrap_identity_witness :
    MemoryInfo.rewrap (MemoryInfo.MemoryInfo 3 0xC0000000 7 true) =
      MemoryInfo.MemoryInfo 3 0xC0000000 7 true :=
  (rewrap_identity 3 0xC0000000 7 (by decide) (by decide) (by decide)).2.1

/-- C13: for an 8-bit `file` and 32-bit `offset` and `size`, the unpacked constructor stores
its arguments verbatim, `file() = file`, `offset() = offset`, `size() = size`; and the packed
constructor also has `size() = size`. -/
theorem unpacked_verbatim (file offset size : Nat) (hf : file < 256) (_ho : offset < 2 ^ 32)
    (_hs : size < 2 ^ 32) :
    (MemoryInfo.MemoryInfo file offset size false).file = (file : Int) ∧
    (MemoryInfo.MemoryInfo file offset size false).offset = offset ∧
    (MemoryInfo.MemoryInfo file offset size false).size = size ∧
    (MemoryInfo.MemoryInfo file offset size true).size = size := by
  refine ⟨?_, ?_, ?_, ?_⟩
  · rw [memoryInfo_unshifted_eq]
    exact toInt_of_lt _ (by show file < 2 ^ 31; omega)
  · rw [memoryInfo_unshifted_eq]; rfl
  · rw [memoryInfo_unshifted_eq]; rfl
  · simp only [MemoryInfo.MemoryInfo, if_true, MemoryInfo.size]

/-- The witness of `unpacked_verbatim`: `file = 200`, `offset = 0xC0000010`, `size = 9`. -/
theorem unpacked_verbatim_witness :
    (MemoryInfo.MemoryInfo 200 0xC0000010 9 false).file = 200 ∧
    (MemoryInfo.MemoryInfo 200 0xC0000010 9 false).offset = 0xC0000010 ∧
    (MemoryInfo.MemoryInfo 200 0xC0000010 9 false).size = 9 ∧
    (MemoryInfo.MemoryInfo 200 0xC0000010 9 true).size = 9 :=
  unpacked_verbatim 200 0xC0000010 9 (by decide) (by decide) (by decide)

/-- C14: for an 8-bit `file` and a 32-bit `offset` the packed locator satisfies
`0 <= file() <= 1023` and `offset() <= 2^30 - 1`. -/
theorem packed_field_widths (file offset size : Nat) (_hf : file < 256) (ho : offset < 2 ^ 32) :
    0 ≤ (MemoryInfo.MemoryInfo file offset size true).file ∧
    (MemoryInfo.MemoryInfo file offset size true).file ≤ 1023 ∧
    (MemoryInfo.MemoryInfo file offset size true).offset ≤ 2 ^ 30 - 1 := by
  have hfile := shifted_file_eq file offset size ho
  refine ⟨?_, ?_, ?_⟩
  · rw [hfile]; exact Int.ofNat_nonneg _
  · rw [hfile]; omega
  · rw [memoryInfo_shifted_eq file offset size ho]
    show offset % 2 ^ 30 ≤ 2 ^ 30 - 1
    omega

/-- The witness of `packed_field_widths`: `file = 255`, `offset = 0xFFFFFFFF`. -/
theorem packed_field_widths_witness :
    (MemoryInfo.MemoryInfo 255 0xFFFFFFFF 0 true).file ≤ 1023 ∧
    (MemoryInfo.MemoryInfo 255 0xFFFFFFFF 0 true).offset ≤ 2 ^ 30 - 1 :=
  (packed_field_widths 255 0xFFFFFFFF 0 (by decide) (by decide)).2

/-- C15: for an 8-bit `file` and any 32-bit `offset` (bits 30 and 31 included), packing and
then serialising in Offset mode gives the byte `file mod 64` followed by the 4-byte big-endian
encoding of `offset`; so the full offset is read back from bytes 1 to 4, and byte 0 is `file`
exactly when `file <= 63`. -/
theorem pack_serialize_image (file offset size : Nat) (hf : file < 256) (ho : offset < 2 ^ 32) :
    MemoryInfo.bytes BytesType.Offset (MemoryInfo.MemoryInfo file offset size true) =
      file % 64 :: writeBE 4 offset ∧
    readBE ((MemoryInfo.bytes BytesType.Offset
      (MemoryInfo.MemoryInfo file offset size true)).drop 1) = offset ∧
    ((MemoryInfo.bytes BytesType.Offset
      (MemoryInfo.MemoryInfo file offset size true)).getD 0 0 = file ↔ file ≤ 63) := by
  have hb := (constructed_bounds file offset size true hf ho).1
  have himg : MemoryInfo.bytes BytesType.Offset (MemoryInfo.MemoryInfo file offset size true) =
      file % 64 :: writeBE 4 offset := by
    rw [bytes_offset_eq _ hb, memoryInfo_shifted_eq file offset size ho]
    have h1 : (file * 4 % 256 + offset / 2 ^ 30) / 4 = file % 64 := by omega
    have h2 : offset % 2 ^ 30 % 2 ^ 30 + (file * 4 % 256 + offset / 2 ^ 30) % 4 * 2 ^ 30 =
        offset := by
      omega
    simp only [h1, h2]
  rw [himg]
  refine ⟨rfl, ?_, ?_⟩
  · simp only [List.drop_succ_cons, List.drop_zero]
    exact readBE_writeBE_four offset ho
  · simp only [List.getD_cons_zero]
    omega

/-- The witness of `pack_serialize_image`: `file = 200`, `offset = 0xC0000010` serialise to
`08 c0 00 00 10`, the file byte being `200 mod 64`. -/
theorem pack_serialize_image_witness :
    MemoryInfo.bytes BytesType.Offset (MemoryInfo.MemoryInfo 200 0xC0000010 0 true) =
      200 % 64 :: writeBE 4 0xC0000010 ∧
    MemoryInfo.bytes BytesType.Offset (MemoryInfo.MemoryInfo 200 0xC0000010 0 true) =
      [0x08, 0xc0, 0x00, 0x00, 0x10] :=
  ⟨(pack_serialize_image 200 0xC0000010 0 (by decide) (by decide)).1, by decide⟩

/-- C16: for every constructed locator (either `Shifted` flag) the Count-mode output is a
5-byte array whose byte 0 is `0x00` and whose bytes 1 to 4 are the big-endian encoding of
`size()`; a locator built with the same size from other file and offset arguments has the
same Count-mode bytes. -/
theorem count_bytes_shape (file offset size : Nat) (Shifted : Bool) (file2 offset2 : Nat)
    (Shifted2 : Bool) (hf : file < 256) (ho : offset < 2 ^ 32) (_hs : size < 2 ^ 32)
    (hf2 : file2 < 256) (ho2 : offset2 < 2 ^ 32) :
    (MemoryInfo.bytes BytesType.Count (MemoryInfo.MemoryInfo file offset size Shifted)).length = 5 ∧
    (MemoryInfo.bytes BytesType.Count (MemoryInfo.MemoryInfo file offset size Shifted))[0]? =
      some 0 ∧
    (MemoryInfo.bytes BytesType.Count (MemoryInfo.MemoryInfo file offset size Shifted)).drop 1 =
      writeBE 4 (MemoryInfo.MemoryInfo file offset size Shifted).size ∧
    MemoryInfo.bytes BytesType.Count (MemoryInfo.MemoryInfo file2 offset2 size Shifted2) =
      MemoryInfo.bytes BytesType.Count (MemoryInfo.MemoryInfo file offset size Shifted) := by
  have h1 : (MemoryInfo.MemoryInfo file offset size Shifted).size_ = size :=
    (constructed_bounds file offset size Shifted hf ho).2.2
  have h2 : (MemoryInfo.MemoryInfo file2 offset2 size Shifted2).size_ = size :=
    (constructed_bounds file2 offset2 size Shifted2 hf2 ho2).2.2
  have e1 : MemoryInfo.bytes BytesType.Count (MemoryInfo.MemoryInfo file offset size Shifted) =
      0 :: writeBE 4 size := by
    rw [bytes_count_eq, h1, writeBE_four_mod]
  have e2 : MemoryInfo.bytes BytesType.Count (MemoryInfo.MemoryInfo file2 offset2 size Shifted2) =
      0 :: writeBE 4 size := by
    rw [bytes_count_eq, h2, writeBE_four_mod]
  have e3 : (MemoryInfo.MemoryInfo file offset size Shifted).size = size := h1
  rw [e1, e2, e3]
  refine ⟨by rw [writeBE_four]; rfl, rfl, rfl, rfl⟩

/-- The witness of `count_bytes_shape`: `size = 0x01020304` gives `00 01 02 03 04`, for the
packed locator of file 5, offset 16 as for the unpacked one of file 9, offset 77. -/
theorem count_bytes_shape_witness :
    MemoryInfo.bytes BytesType.Count (MemoryInfo.MemoryInfo 5 16 0x01020304 true) =
      [0, 1, 2, 3, 4] ∧
    MemoryInfo.bytes BytesType.Count (MemoryInfo.MemoryInfo 9 77 0x01020304 false) =
      MemoryInfo.bytes BytesType.Count (MemoryInfo.MemoryInfo 5 16 0x01020304 true) :=
  ⟨by decide, (count_bytes_shape 5 16 0x01020304 true 9 77 false (by decide) (by decide)
    (by decide) (by decide) (by decide)).2.2.2⟩

/-! ## Hex codec: decoding then encoding -/

set_option maxRecDepth 100000 in
theorem reencode_pair : ∀ c1 ∈ "0123456789abcdefABCDEF".toList,
    ∀ c2 ∈ "0123456789abcdefABCDEF".toList,
    Nat.digitChar (toUInt8 ((readHex [c1, c2]).getD 0) / 16) = c1.toLower ∧
    Nat.digitChar (toUInt8 ((readHex [c1, c2]).getD 0) % 16) = c2.toLower := by
  decide

theorem toLower_lowerHex : ∀ c ∈ "0123456789abcdef".toList, c.toLower = c := by
  decide

theorem toUInt8_lt (i : Int) : toUInt8 i < 256 := by
  simp only [toUInt8]
  omega

theorem fromString_data_lt (Size : Nat) (s : List Char) :
    ∀ x ∈ (Hex.fromString Size s).data, x < 256 := by
  intro x hx
  simp only [Hex.fromString, Hex.data, List.mem_map] at hx
  obtain ⟨i, _, rfl⟩ := hx
  exact toUInt8_lt _

theorem fromString_data_length (Size : Nat) (s : List Char) :
    (Hex.fromString Size s).data.length = Size := by
  simp [Hex.fromString, Hex.data]

theorem fromString_data_getElem (Size : Nat) (s : List Char) (i : Nat)
    (hi : i < (Hex.fromString Size s).data.length) :
    (Hex.fromString Size s).data[i] =
      toUInt8 ((readHex [s.getD (i * 2) '\x00', s.getD (i * 2 + 1) '\x00']).getD 0) := by
  simp only [Hex.fromString, Hex.data, List.getElem_map, List.getElem_range]

theorem reencode_getElem (Size : Nat) (s : List Char) (hlen : s.length = 2 * Size)
    (hs : ∀ c ∈ s, isHexChar c) (k : Nat) (hk : k < s.length)
    (hk2 : k < ((Hex.fromString Size s).data.flatMap writeHex).length) :
    ((Hex.fromString Size s).data.flatMap writeHex)[k] = s[k].toLower := by
  have hl := fromString_data_length Size s
  have hi : k / 2 < (Hex.fromString Size s).data.length := by omega
  obtain ⟨g0, g1⟩ := flatMap_writeHex_getD '0' _ (fromString_data_lt Size s) (k / 2) hi
  rw [fromString_data_getElem Size s (k / 2) hi] at g0 g1
  have h0 : k / 2 * 2 < s.length := by omega
  have h1 : k / 2 * 2 + 1 < s.length := by omega
  rw [List.getD_eq_getElem _ _ h0, List.getD_eq_getElem _ _ h1] at g0 g1
  have hp := reencode_pair _ (hs _ (List.getElem_mem h0)) _ (hs _ (List.getElem_mem h1))
  rw [hp.1] at g0
  rw [hp.2] at g1
  rcases Nat.mod_two_eq_zero_or_one k with hpar | hpar
  · have e : k / 2 * 2 = k := by omega
    rw [← List.getD_eq_getElem _ '0' hk2]
    simp only [e] at g0
    exact g0
  · have e : k / 2 * 2 + 1 = k := by omega
    rw [← List.getD_eq_getElem _ '0' hk2]
    simp only [e] at g1
    exact g1

/-- C17: for every `Size` and every string `s` of exactly `2 * Size` hexadecimal digits in any
letter case, encoding the decoded bytes gives the lowercase form of `s`:
`Hex(Hex(s).data()).string() = lowercase(s)`; when `s` is lowercase it is returned unchanged. -/
theorem hex_reencode_lowercase (Size : Nat) (s : List Char) (hlen : s.length = 2 * Size)
    (hs : ∀ c ∈ s, isHexChar c) :
    (Hex.fromArray Size (Hex.fromString Size s).data).string = lowercase s ∧
    ((∀ c ∈ s, isLowerHexChar c) →
      (Hex.fromArray Size (Hex.fromString Size s).data).string = s) := by
  have hmain : (Hex.fromArray Size (Hex.fromString Size s).data).string = lowercase s := by
    rw [fromArray_string]
    have hl : ((Hex.fromString Size s).data.flatMap writeHex).length = s.length := by
      rw [flatMap_writeHex_length _ (fromString_data_lt Size s), fromString_data_length, hlen]
    apply List.ext_getElem
    · rw [hl, lowercase, List.length_map]
    · intro k h1 h2
      have hk : k < s.length := by rw [← hl]; exact h1
      rw [reencode_getElem Size s hlen hs k hk h1]
      simp only [lowercase, List.getElem_map]
  refine ⟨hmain, ?_⟩
  intro hlow
  rw [hmain]
  exact (lowercase_eq_self_iff s).mpr (fun c hc => toLower_lowerHex c (hlow c hc))

/-- The witness of `hex_reencode_lowercase`: `"aBc9"` is re-encoded as `"abc9"`. -/
theorem hex_reencode_lowercase_witness :
    (Hex.fromArray 2 (Hex.fromString 2 "aBc9".toList).data).string = lowercase "aBc9".toList ∧
    lowercase "aBc9".toList = "abc9".toList :=
  ⟨(hex_reencode_lowercase 2 "aBc9".toList (by decide) (by decide)).1, by decide⟩

end Casc
